import Mathlib

/-
Shallow embedding of the MultiSlider component
(packages/core/src/components/slider/multiSlider.tsx) and of the
windowOverride context validator. Slider values (JS numbers used only
through comparisons, subtraction, multiplication and division) are
modelled as rationals. Stateful React plumbing is modelled by passing
the data the functions read (children, tick ratio, track size)
explicitly; callback invocation is modelled by returning which
callbacks fire and with which arguments.
-/

/-- Handle interaction kinds, from handleProps.ts (imported by
multiSlider.tsx; the enum itself is not under src/). The slider code
distinguishes PUSH from any other interactive kind (a non-PUSH handle
is "locked") and NONE (non-interactive). -/
inductive HandleInteractionKind where
  | PUSH
  | LOCK
  | NONE
deriving DecidableEq, Repr

/-- The slice of IHandleProps that the slider algorithms read:
the numeric value and the interaction kind. -/
structure IHandleProps where
  value : ℚ
  interactionKind : HandleInteractionKind
deriving DecidableEq, Repr

/-- A React child of the MultiSlider: a MultiSlider.Handle element
carrying IHandleProps, a falsy child (null / false, dropped by the
boolean coercion in validateProps and by isElementOfType), or an
element of any other type. -/
inductive Child where
  | handle (props : IHandleProps)
  | falsy
  | other
deriving DecidableEq, Repr

/-- The comparator left.value - right.value used to sort handle props
ascending by value. -/
def handleLe (a b : IHandleProps) : Prop := a.value ≤ b.value

instance : DecidableRel handleLe :=
  fun a b => inferInstanceAs (Decidable (a.value ≤ b.value))

instance : IsTotal IHandleProps handleLe :=
  ⟨fun a b => le_total a.value b.value⟩

instance : IsTrans IHandleProps handleLe :=
  ⟨fun _ _ _ hab hbc => le_trans hab hbc⟩

/-- The props of the MultiSlider.Handle children, in child order. -/
def handlesOf (children : List Child) : List IHandleProps :=
  children.filterMap (fun child =>
    match child with
    | .handle props => some props
    | _ => none)

/-- getSortedHandleProps: map children to their props when they are
MultiSlider.Handle elements satisfying the predicate (otherwise null),
drop the nulls, and sort by value with the comparator
(left, right) => left.value - right.value. Array.prototype.sort with a
numeric comparator is a stable ascending sort, modelled by the stable
insertionSort. -/
def getSortedHandleProps (children : List Child) (predicate : IHandleProps → Bool) :
    List IHandleProps :=
  let maybeHandles := children.filterMap (fun child =>
    match child with
    | .handle props => if predicate props then some props else none
    | _ => none)
  List.insertionSort handleLe maybeHandles

/-- getSortedInteractiveHandleProps: the sorted handle props whose
interactionKind is not NONE. -/
def getSortedInteractiveHandleProps (children : List Child) : List IHandleProps :=
  getSortedHandleProps children
    (fun childProps => childProps.interactionKind != HandleInteractionKind.NONE)

/-- Modelled from the spec: fillValues from sliderUtils is imported by
multiSlider.tsx but is not under src/. Per the spec's words
("fill-forward", "shifting free handles along with it", "every entry
between oldIndex and the new position (inclusive) set") it writes
fillValue into every slot from startIndex to endIndex inclusive, in
either direction. -/
def fillValues (values : List ℚ) (startIndex endIndex : Nat) (fillValue : ℚ) : List ℚ :=
  values.mapIdx (fun index v =>
    if min startIndex endIndex ≤ index ∧ index ≤ max startIndex endIndex then fillValue else v)

/-- The index sequence visited by the for loop of
findFirstLockedHandleIndex: from startIndex + inc to endIndex
inclusive, stepping by inc = 1 when startIndex < endIndex and by
inc = -1 otherwise; empty when startIndex = endIndex. -/
def scanIndices (startIndex endIndex : Nat) : List Nat :=
  if startIndex < endIndex then List.range' (startIndex + 1) (endIndex - startIndex)
  else (List.range' endIndex (startIndex - endIndex)).reverse

/-- Placeholder handle used to totalize list indexing; the slider only
indexes the sorted interactive handles in bounds. -/
def defaultHandle : IHandleProps :=
  { value := 0, interactionKind := HandleInteractionKind.PUSH }

/-- findFirstLockedHandleIndex: walk the sorted interactive handles
from startIndex + inc to endIndex inclusive (inc = 1 or -1 toward
endIndex) and return the first index whose interactionKind is not
PUSH; return -1 when every visited handle is PUSH. -/
def findFirstLockedHandleIndex (handleProps : List IHandleProps)
    (startIndex endIndex : Nat) : Int :=
  match (scanIndices startIndex endIndex).find? (fun index =>
      (handleProps.getD index defaultHandle).interactionKind != HandleInteractionKind.PUSH) with
  | some index => Int.ofNat index
  | none => -1

/-- The sorted updated values of getNewHandleValues: copy the old
values, overwrite slot oldIndex with newValue, and sort ascending
(newValues.sort((left, right) => left - right)). -/
def newSortedValues (children : List Child) (newValue : ℚ) (oldIndex : Nat) : List ℚ :=
  let handleProps := getSortedInteractiveHandleProps children
  let oldValues := handleProps.map (fun handle => handle.value)
  List.insertionSort (fun l r => l ≤ r) (oldValues.set oldIndex newValue)

/-- newIndex = newValues.indexOf(newValue): the first position of the
dragged value in the sorted updated values. -/
def newSortedIndex (children : List Child) (newValue : ℚ) (oldIndex : Nat) : Nat :=
  (newSortedValues children newValue oldIndex).indexOf newValue

/-- getNewHandleValues: sort the updated values; if no locked handle
lies between oldIndex and the new sorted position (endpoint included),
fill that whole span with newValue; otherwise discard newValue and
return the old values with the span from oldIndex to the first locked
index filled with the locked handle's old value. -/
def getNewHandleValues (children : List Child) (newValue : ℚ) (oldIndex : Nat) : List ℚ :=
  let handleProps := getSortedInteractiveHandleProps children
  let oldValues := handleProps.map (fun handle => handle.value)
  let newValues := newSortedValues children newValue oldIndex
  let newIndex := newSortedIndex children newValue oldIndex
  let lockIndex := findFirstLockedHandleIndex handleProps oldIndex newIndex
  if lockIndex = -1 then
    fillValues newValues oldIndex newIndex newValue
  else
    let lockValue := oldValues.getD lockIndex.toNat 0
    fillValues oldValues oldIndex lockIndex.toNat lockValue

/-- The errors validateProps can throw. -/
inductive SliderError where
  | SLIDER_ZERO_STEP
  | SLIDER_ZERO_LABEL_STEP
  | MULTISLIDER_INVALID_CHILD
deriving DecidableEq, Repr

/-- validateProps: throw SLIDER_ZERO_STEP when stepSize <= 0, then
SLIDER_ZERO_LABEL_STEP when labelStepSize <= 0, then
MULTISLIDER_INVALID_CHILD when some truthy child is not a
MultiSlider.Handle element; otherwise return normally (none). -/
def validateProps (stepSize labelStepSize : ℚ) (children : List Child) :
    Option SliderError :=
  if stepSize ≤ 0 then some SliderError.SLIDER_ZERO_STEP
  else if labelStepSize ≤ 0 then some SliderError.SLIDER_ZERO_LABEL_STEP
  else if children.any (fun child =>
      match child with
      | .other => true
      | _ => false) then
    some SliderError.MULTISLIDER_INVALID_CHILD
  else none

/-- Modelled from the spec: Utils.clamp from common/utils is imported
by multiSlider.tsx but is not under src/. Per the spec ("value
clamping", "clamped to the interval [0, 1]") it is
Math.min(Math.max(val, lo), hi). -/
def clamp (val lo hi : ℚ) : ℚ := min (max val lo) hi

/-- getOffsetRatio: (value - min) * tickSizeRatio clamped to [0, 1].
The state field tickSizeRatio is passed explicitly as r. -/
def getOffsetRatio (minValue : ℚ) (r : ℚ) (value : ℚ) : ℚ :=
  clamp ((value - minValue) * r) 0 1

/-- updateTickSize: given min, max and the track's client size, compute
tickSizeRatio = 1 / (max - min) and tickSize = trackSize *
tickSizeRatio; returns (tickSize, tickSizeRatio). -/
def updateTickSize (minValue maxValue trackSize : ℚ) : ℚ × ℚ :=
  let tickSizeRatio := 1 / (maxValue - minValue)
  let tickSize := trackSize * tickSizeRatio
  (tickSize, tickSizeRatio)

/-- The slice of a rendered Handle element that nearestHandleForValue
reads: its current value prop and its clientToValue conversion. The
per-handle client offset produced by mouseEventClientOffset /
touchEventClientOffset is modelled by the getOffset argument. -/
structure HandleElement where
  value : ℚ
  clientToValue : ℚ → ℚ

/-- Modelled from the spec: argMin from sliderUtils is imported by
multiSlider.tsx but is not under src/. Per the spec ("computing
nearest-handle selection") it returns an element minimizing argFn
(the first one on ties) and undefined for an empty array. -/
def argMin {α : Type} (values : List α) (argFn : α → ℚ) : Option α :=
  match values with
  | [] => none
  | v :: vs => some (vs.foldl (fun best x => if argFn x < argFn best then x else best) v)

/-- nearestHandleForValue: the handle minimizing
|clientToValue(getOffset(handle)) - handle.props.value|. -/
def nearestHandleForValue (handles : List HandleElement)
    (getOffset : HandleElement → ℚ) : Option HandleElement :=
  argMin handles (fun handle => |handle.clientToValue (getOffset handle) - handle.value|)

/-- The distance metric minimized by nearestHandleForValue. -/
def handleDistance (getOffset : HandleElement → ℚ) (handle : HandleElement) : ℚ :=
  |handle.clientToValue (getOffset handle) - handle.value|

/-- Which callbacks handleChange fires: the argument passed to
props.onChange (none when it is not invoked) and the indices of the
individual handles whose own onChange is invoked. -/
structure ChangeCalls where
  onChangeArg : Option (List ℚ)
  handleOnChangeIndices : List Nat
deriving DecidableEq, Repr

/-- handleChange: compare newValues with the current sorted interactive
values (Utils.arraysEqual, elementwise equality); when they differ,
invoke props.onChange(newValues) and each handle's own onChange at
exactly the indices whose value changed; when they are equal, invoke
nothing. -/
def handleChange (children : List Child) (newValues : List ℚ) : ChangeCalls :=
  let handleProps := getSortedInteractiveHandleProps children
  let oldValues := handleProps.map (fun handle => handle.value)
  if newValues = oldValues then
    { onChangeArg := none, handleOnChangeIndices := [] }
  else
    { onChangeArg := some newValues,
      handleOnChangeIndices := (List.range handleProps.length).filter (fun index =>
        oldValues.getD index 0 != newValues.getD index 0) }

/-- Which callbacks handleRelease fires: props.onRelease always
receives newValues, and every handle's own onRelease is invoked. -/
structure ReleaseCalls where
  onReleaseArg : List ℚ
  handleOnReleaseIndices : List Nat
deriving DecidableEq, Repr

/-- handleRelease: unconditionally invoke props.onRelease(newValues)
and every handle's onRelease. -/
def handleRelease (children : List Child) (newValues : List ℚ) : ReleaseCalls :=
  let handleProps := getSortedInteractiveHandleProps children
  { onReleaseArg := newValues,
    handleOnReleaseIndices := List.range handleProps.length }

/-- The current values of the sorted interactive handles
(handleProps.map(handle => handle.value)). -/
def oldValuesOf (children : List Child) : List ℚ :=
  (getSortedInteractiveHandleProps children).map (fun handle => handle.value)

/-- The interaction kind of the sorted interactive handle at an index
(handleProps[index].interactionKind). -/
def kindAt (children : List Child) (index : Nat) : HandleInteractionKind :=
  ((getSortedInteractiveHandleProps children).getD index defaultHandle).interactionKind

/-- Arithmetic description of the indices the lock scan visits: strictly
after startIndex up to endIndex inclusive when scanning upward, and from
endIndex up to strictly before startIndex when scanning downward (the
range is empty when startIndex = endIndex). -/
def inScanRange (startIndex endIndex index : Nat) : Prop :=
  (startIndex < endIndex ∧ startIndex + 1 ≤ index ∧ index ≤ endIndex) ∨
  (¬ startIndex < endIndex ∧ endIndex ≤ index ∧ index + 1 ≤ startIndex)

instance (startIndex endIndex index : Nat) :
    Decidable (inScanRange startIndex endIndex index) := by
  unfold inScanRange; infer_instance

/-- j is visited strictly before i by the lock scan: closer to
startIndex in the direction of endIndex. -/
def scanBefore (startIndex endIndex j i : Nat) : Prop :=
  (startIndex < endIndex ∧ j < i) ∨ (¬ startIndex < endIndex ∧ i < j)

instance (startIndex endIndex j i : Nat) :
    Decidable (scanBefore startIndex endIndex j i) := by
  unfold scanBefore; infer_instance

/-- Two handles whose upper one is locked (kind LOCK): a drag of the
lower one past it must clamp. -/
def lockChildren : List Child :=
  [Child.handle ⟨0, HandleInteractionKind.PUSH⟩, Child.handle ⟨10, HandleInteractionKind.LOCK⟩]

/-- Two PUSH handles: a drag of the lower one past the upper pushes it along. -/
def pushChildren : List Child :=
  [Child.handle ⟨0, HandleInteractionKind.PUSH⟩, Child.handle ⟨10, HandleInteractionKind.PUSH⟩]

/-- The four members of a window object that the windowOverride
validator requires; none models a null or undefined member. -/
structure WindowModel where
  document : Option Unit
  location : Option Unit
  alert : Option Unit
  setInterval : Option Unit
deriving DecidableEq, Repr

/-- The error the windowOverride validator can return. -/
inductive WindowOverrideError where
  | WINDOW_OVERRIDE_CONTEXT_UNEXPECTED_TYPE
deriving DecidableEq, Repr

/-- The windowOverride context validator: given obj[key] (none models a
null or undefined windowOverride), return an Error when the value is
non-null and any of document, location, alert, setInterval is null or
undefined, and undefined (none) otherwise. -/
def windowOverrideValidator (windowOverride : Option WindowModel) :
    Option WindowOverrideError :=
  match windowOverride with
  | none => none
  | some w =>
    if w.document = none ∨ w.location = none ∨ w.alert = none ∨ w.setInterval = none then
      some WindowOverrideError.WINDOW_OVERRIDE_CONTEXT_UNEXPECTED_TYPE
    else none

/-! Theorems. -/

/-- C9: the windowOverride context validator returns undefined for a null or
undefined value, returns an Error exactly when the value is present but one of
its document, location, alert, setInterval members is null or undefined, and
accepts a value providing all four members. -/
theorem windowOverrideValidator_spec (windowOverride : Option WindowModel) :
    (windowOverrideValidator none = none) ∧
    (windowOverrideValidator windowOverride ≠ none ↔
      ∃ w, windowOverride = some w ∧
        (w.document = none ∨ w.location = none ∨ w.alert = none ∨ w.setInterval = none)) ∧
    (∀ w : WindowModel, w.document ≠ none → w.location ≠ none → w.alert ≠ none →
      w.setInterval ≠ none → windowOverrideValidator (some w) = none) := by
  refine ⟨rfl, ?_, ?_⟩
  · cases windowOverride with
    | none => simp [windowOverrideValidator]
    | some w =>
      by_cases h : w.document = none ∨ w.location = none ∨ w.alert = none ∨ w.setInterval = none
      · simp [windowOverrideValidator, h]
      · simp [windowOverrideValidator, h]
  · intro w h1 h2 h3 h4
    simp [windowOverrideValidator, h1, h2, h3, h4]

/-- C9 witness: a window providing all four members is accepted. -/
theorem windowOverrideValidator_spec_witness :
    windowOverrideValidator (some ⟨some (), some (), some (), some ()⟩) = none :=
  (windowOverrideValidator_spec (some ⟨some (), some (), some (), some ()⟩)).2.2
    ⟨some (), some (), some (), some ()⟩
    (by decide) (by decide) (by decide) (by decide)

/-- C2 counterexample: with stepSize = 1 > 0 and labelStepSize = 1 > 0 but a
child that is not a MultiSlider.Handle element, validateProps still throws
(MULTISLIDER_INVALID_CHILD), so input validation rejects more than non-positive
step sizes. -/
theorem validateProps_invalid_child_cex :
    validateProps 1 1 [Child.other] = some SliderError.MULTISLIDER_INVALID_CHILD ∧
    ¬ ((1 : ℚ) ≤ 0) := by
  constructor
  · decide
  · decide

/-- C2 (amended): validateProps throws SLIDER_ZERO_STEP exactly when
stepSize <= 0, SLIDER_ZERO_LABEL_STEP exactly when stepSize > 0 and
labelStepSize <= 0, MULTISLIDER_INVALID_CHILD exactly when both step sizes are
positive and some truthy child is not a MultiSlider.Handle element, and throws
nothing otherwise. -/
theorem validateProps_spec (stepSize labelStepSize : ℚ) (children : List Child) :
    (validateProps stepSize labelStepSize children = some SliderError.SLIDER_ZERO_STEP ↔
      stepSize ≤ 0) ∧
    (validateProps stepSize labelStepSize children = some SliderError.SLIDER_ZERO_LABEL_STEP ↔
      0 < stepSize ∧ labelStepSize ≤ 0) ∧
    (validateProps stepSize labelStepSize children = some SliderError.MULTISLIDER_INVALID_CHILD ↔
      0 < stepSize ∧ 0 < labelStepSize ∧ Child.other ∈ children) ∧
    (validateProps stepSize labelStepSize children = none ↔
      0 < stepSize ∧ 0 < labelStepSize ∧ Child.other ∉ children) := by
  have hany : (children.any (fun child =>
      match child with
      | .other => true
      | _ => false) = true) ↔ Child.other ∈ children := by
    rw [List.any_eq_true]
    constructor
    · rintro ⟨x, hx, hpx⟩
      cases x
      case handle p => simp at hpx
      case falsy => simp at hpx
      case other => exact hx
    · intro hmem
      exact ⟨Child.other, hmem, rfl⟩
  unfold validateProps
  by_cases h1 : stepSize ≤ 0
  · simp [h1]
  · by_cases h2 : labelStepSize ≤ 0
    · simp [h1, h2, not_le.mp h1]
    · by_cases h3 : children.any (fun child =>
        match child with
        | .other => true
        | _ => false) = true
      · simp [h1, h2, h3, not_le.mp h1, not_le.mp h2, hany.mp h3]
      · simp [h1, h2, h3, not_le.mp h1, not_le.mp h2]
        intro hmem
        exact h3 (hany.mpr hmem)

/-- C2 witness: concrete instances of each clause of the amended claim. -/
theorem validateProps_spec_witness :
    validateProps 0 1 [] = some SliderError.SLIDER_ZERO_STEP ∧
    validateProps 1 1 [] = none :=
  ⟨(validateProps_spec 0 1 []).1.mpr (by decide),
    (validateProps_spec 1 1 []).2.2.2.mpr ⟨by decide, by decide, by decide⟩⟩

/-- C6: updateTickSize computes tickSizeRatio = 1 / (max - min) and
tickSize = trackSize * tickSizeRatio, getOffsetRatio is
(value - min) * tickSizeRatio clamped to [0, 1], and every offset ratio it
produces lies between 0 and 1 inclusive. -/
theorem updateTickSize_offsetRatio_spec (minValue maxValue trackSize : ℚ)
    (_hlt : minValue < maxValue) :
    ((updateTickSize minValue maxValue trackSize).2 = 1 / (maxValue - minValue)) ∧
    ((updateTickSize minValue maxValue trackSize).1 =
      trackSize * (1 / (maxValue - minValue))) ∧
    (∀ v, getOffsetRatio minValue (updateTickSize minValue maxValue trackSize).2 v =
      clamp ((v - minValue) * (1 / (maxValue - minValue))) 0 1) ∧
    (∀ r v, 0 ≤ getOffsetRatio minValue r v ∧ getOffsetRatio minValue r v ≤ 1) := by
  refine ⟨rfl, rfl, fun v => rfl, fun r v => ⟨?_, ?_⟩⟩
  · unfold getOffsetRatio clamp
    exact le_min (le_max_right _ _) (by norm_num)
  · unfold getOffsetRatio clamp
    exact min_le_right _ _

/-- C6 witness: a slider from 0 to 10 on a 200 pixel track. -/
theorem updateTickSize_offsetRatio_spec_witness :
    (0 : ℚ) < 10 ∧
    (updateTickSize 0 10 200).2 = 1 / (10 - 0) ∧
    0 ≤ getOffsetRatio 0 (updateTickSize 0 10 200).2 4 :=
  ⟨by norm_num, (updateTickSize_offsetRatio_spec 0 10 200 (by norm_num)).1,
    ((updateTickSize_offsetRatio_spec 0 10 200 (by norm_num)).2.2.2
      (updateTickSize 0 10 200).2 4).1⟩

/-- C8: handle-value reconciliation is a pure deterministic function of the
interactive handle props and the drag arguments: any two prop states with the
same sorted interactive handle props produce equal output arrays for every
(newValue, oldIndex), with no other dependence. -/
theorem getNewHandleValues_deterministic (childrenA childrenB : List Child)
    (h : getSortedInteractiveHandleProps childrenA = getSortedInteractiveHandleProps childrenB)
    (newValue : ℚ) (oldIndex : Nat) :
    getNewHandleValues childrenA newValue oldIndex =
      getNewHandleValues childrenB newValue oldIndex := by
  unfold getNewHandleValues newSortedIndex newSortedValues
  rw [h]

/-- C8 witness: two different children lists (an extra falsy child and a
non-interactive handle) with the same interactive handle props. -/
theorem getNewHandleValues_deterministic_witness :
    getSortedInteractiveHandleProps pushChildren =
      getSortedInteractiveHandleProps (Child.falsy ::
        Child.handle ⟨7, HandleInteractionKind.NONE⟩ :: pushChildren) ∧
    getNewHandleValues pushChildren 15 0 =
      getNewHandleValues (Child.falsy ::
        Child.handle ⟨7, HandleInteractionKind.NONE⟩ :: pushChildren) 15 0 :=
  ⟨by decide, getNewHandleValues_deterministic pushChildren
    (Child.falsy :: Child.handle ⟨7, HandleInteractionKind.NONE⟩ :: pushChildren)
    (by decide) 15 0⟩

/-- Keeping only the handle children that satisfy the predicate is the same as
taking all handle props and filtering them. -/
theorem filterMap_handles_eq_filter (children : List Child) (predicate : IHandleProps → Bool) :
    children.filterMap (fun child =>
      match child with
      | .handle props => if predicate props then some props else none
      | _ => none) = (handlesOf children).filter predicate := by
  induction children with
  | nil => rfl
  | cons c cs ih =>
    cases c with
    | handle props =>
      by_cases hp : predicate props
      · simp [handlesOf, List.filterMap_cons, List.filter_cons, hp] at ih ⊢
        exact ih
      · simp [handlesOf, List.filterMap_cons, List.filter_cons, hp] at ih ⊢
        exact ih
    | falsy =>
      simp [handlesOf, List.filterMap_cons] at ih ⊢
      exact ih
    | other =>
      simp [handlesOf, List.filterMap_cons] at ih ⊢
      exact ih

/-- C7: getSortedHandleProps (with the default always-true predicate) returns
the handle children's props sorted nondecreasing by value, and
getSortedInteractiveHandleProps returns the same props with the
interactionKind NONE handles removed, still sorted nondecreasing by value. -/
theorem getSortedHandleProps_spec (children : List Child) :
    ((getSortedHandleProps children (fun _ => true)).Perm (handlesOf children) ∧
      (getSortedHandleProps children (fun _ => true)).Sorted handleLe) ∧
    ((getSortedInteractiveHandleProps children).Perm ((handlesOf children).filter
        (fun props => props.interactionKind != HandleInteractionKind.NONE)) ∧
      (getSortedInteractiveHandleProps children).Sorted handleLe) := by
  refine ⟨⟨?_, ?_⟩, ⟨?_, ?_⟩⟩
  · have h := List.perm_insertionSort handleLe (children.filterMap (fun child =>
      match child with
      | .handle props => if (fun _ : IHandleProps => true) props then some props else none
      | _ => none))
    rw [filterMap_handles_eq_filter, List.filter_true] at h
    exact h
  · exact List.sorted_insertionSort handleLe _
  · unfold getSortedInteractiveHandleProps getSortedHandleProps
    rw [filterMap_handles_eq_filter]
    exact List.perm_insertionSort handleLe _
  · exact List.sorted_insertionSort handleLe _

/-- C7 witness: the sorted interactive handles of a concrete slider. -/
theorem getSortedHandleProps_spec_witness :
    (getSortedInteractiveHandleProps lockChildren).Sorted handleLe ∧
    (getSortedInteractiveHandleProps lockChildren).Perm ((handlesOf lockChildren).filter
      (fun props => props.interactionKind != HandleInteractionKind.NONE)) :=
  ⟨(getSortedHandleProps_spec lockChildren).2.2, (getSortedHandleProps_spec lockChildren).2.1⟩

/-- The fold inside argMin returns an element of the list that minimizes the
metric over the seed and the list. -/
theorem argMin_foldl_min {α : Type} (argFn : α → ℚ) (v : α) (vs : List α) :
    (vs.foldl (fun best x => if argFn x < argFn best then x else best) v) ∈ v :: vs ∧
    ∀ y ∈ v :: vs,
      argFn (vs.foldl (fun best x => if argFn x < argFn best then x else best) v) ≤ argFn y := by
  induction vs generalizing v with
  | nil => simp
  | cons x xs ih =>
    rw [List.foldl_cons]
    rcases ih (if argFn x < argFn v then x else v) with ⟨hmem, hle⟩
    have hbase_v : argFn (if argFn x < argFn v then x else v) ≤ argFn v := by
      by_cases hx : argFn x < argFn v
      · rw [if_pos hx]; exact le_of_lt hx
      · rw [if_neg hx]
    have hbase_x : argFn (if argFn x < argFn v then x else v) ≤ argFn x := by
      by_cases hx : argFn x < argFn v
      · rw [if_pos hx]
      · rw [if_neg hx]; exact not_lt.mp hx
    constructor
    · rcases List.mem_cons.mp hmem with h | h
      · rw [h]
        by_cases hx : argFn x < argFn v
        · rw [if_pos hx]; exact List.mem_cons_of_mem _ (List.mem_cons_self _ _)
        · rw [if_neg hx]; exact List.mem_cons_self _ _
      · exact List.mem_cons_of_mem _ (List.mem_cons_of_mem _ h)
    · intro y hy
      rcases List.mem_cons.mp hy with h | h
      · rw [h]
        exact le_trans (hle _ (List.mem_cons_self _ _)) hbase_v
      · rcases List.mem_cons.mp h with h2 | h2
        · rw [h2]
          exact le_trans (hle _ (List.mem_cons_self _ _)) hbase_x
        · exact hle y (List.mem_cons_of_mem _ h2)

/-- C5: for a non-empty handle list, nearestHandleForValue returns a handle
minimizing |clientToValue(offset) - value| over all handles (so a track
click begins movement on the handle whose value is closest to the clicked
position's value); for an empty list it returns undefined, so no movement
begins. -/
theorem nearestHandleForValue_spec (handles : List HandleElement)
    (getOffset : HandleElement → ℚ) :
    (handles = [] → nearestHandleForValue handles getOffset = none) ∧
    (handles ≠ [] → ∃ found, nearestHandleForValue handles getOffset = some found ∧
      found ∈ handles ∧
      ∀ h₂ ∈ handles, handleDistance getOffset found ≤ handleDistance getOffset h₂) := by
  constructor
  · rintro rfl; rfl
  · intro hne
    cases handles with
    | nil => exact absurd rfl hne
    | cons v vs =>
      rcases argMin_foldl_min
        (fun handle => |handle.clientToValue (getOffset handle) - handle.value|) v vs with
        ⟨hmem, hle⟩
      exact ⟨_, rfl, hmem, hle⟩

/-- C5 witness: two handles at values 0 and 10 with the identity
clientToValue and a click offset of 4. -/
theorem nearestHandleForValue_spec_witness :
    ([⟨0, fun off => off⟩, ⟨10, fun off => off⟩] : List HandleElement) ≠ [] ∧
    (nearestHandleForValue [⟨0, fun off => off⟩, ⟨10, fun off => off⟩]
      (fun _ => 4)).isSome = true := by
  obtain ⟨found, hf, _, _⟩ := (nearestHandleForValue_spec
    [⟨0, fun off => off⟩, ⟨10, fun off => off⟩] (fun _ => 4)).2 (by simp)
  exact ⟨by simp, by rw [hf]; rfl⟩

/-- C10: handleChange invokes props.onChange exactly when the computed values
differ from the current sorted interactive values, invokes an individual
handle's own onChange exactly at the in-range indices whose value changed, and
fires nothing when the computed values equal the current ones. -/
theorem handleChange_spec (children : List Child) (newValues : List ℚ) :
    ((handleChange children newValues).onChangeArg = some newValues ↔
      newValues ≠ oldValuesOf children) ∧
    ((handleChange children newValues).onChangeArg = none ↔
      newValues = oldValuesOf children) ∧
    (∀ index, index ∈ (handleChange children newValues).handleOnChangeIndices ↔
      newValues ≠ oldValuesOf children ∧
      index < (getSortedInteractiveHandleProps children).length ∧
      (oldValuesOf children).getD index 0 ≠ newValues.getD index 0) ∧
    (newValues = oldValuesOf children →
      handleChange children newValues = ⟨none, []⟩) := by
  unfold handleChange oldValuesOf
  by_cases h : newValues = (getSortedInteractiveHandleProps children).map
    (fun handle => handle.value)
  · simp [h]
  · simp [h, List.mem_filter, List.mem_range]

/-- C10 witness: when the computed values equal the current values, nothing
fires. -/
theorem handleChange_spec_witness :
    ([0, 10] : List ℚ) = oldValuesOf lockChildren ∧
    handleChange lockChildren [0, 10] = ⟨none, []⟩ :=
  ⟨by decide, (handleChange_spec lockChildren [0, 10]).2.2.2 (by decide)⟩

/-- find? over an ascending index range returns i exactly when i is the first
index in the range satisfying the predicate. -/
theorem find?_range'_asc (p : Nat → Bool) (n : Nat) :
    ∀ a i, (List.range' a n).find? p = some i ↔
      a ≤ i ∧ i < a + n ∧ p i = true ∧ ∀ j, a ≤ j → j < i → p j = false := by
  induction n with
  | zero =>
    intro a i
    rw [List.range'_zero, List.find?_nil]
    constructor
    · intro h; exact absurd h (by simp)
    · rintro ⟨h1, h2, _⟩; exact absurd h2 (by omega)
  | succ n ih =>
    intro a i
    rw [List.range'_succ]
    by_cases hpa : p a = true
    · rw [List.find?_cons_of_pos _ hpa]
      constructor
      · intro h
        injection h with h
        subst h
        exact ⟨le_refl _, by omega, hpa, fun j hj1 hj2 => absurd hj2 (by omega)⟩
      · rintro ⟨h1, _, h3, h4⟩
        by_cases hia : i = a
        · rw [hia]
        · have hlt : a < i := lt_of_le_of_ne h1 (fun h => hia h.symm)
          have hfa := h4 a (le_refl a) hlt
          rw [hpa] at hfa
          exact absurd hfa (by simp)
    · rw [List.find?_cons_of_neg _ hpa, ih (a + 1) i]
      have hpa2 : p a = false := by
        cases hpab : p a
        · rfl
        · exact absurd hpab hpa
      constructor
      · rintro ⟨h1, h2, h3, h4⟩
        refine ⟨by omega, by omega, h3, fun j hj1 hj2 => ?_⟩
        by_cases hja : j = a
        · rw [hja]; exact hpa2
        · exact h4 j (by omega) hj2
      · rintro ⟨h1, h2, h3, h4⟩
        have hia : i ≠ a := by
          intro h
          rw [h, hpa2] at h3
          exact absurd h3 (by simp)
        exact ⟨by omega, by omega, h3, fun j hj1 hj2 => h4 j (by omega) hj2⟩

/-- find? over a descending index range returns i exactly when i is the
largest index in the range satisfying the predicate. -/
theorem find?_range'_desc (p : Nat → Bool) (n : Nat) :
    ∀ a i, ((List.range' a n).reverse.find? p = some i) ↔
      a ≤ i ∧ i < a + n ∧ p i = true ∧ ∀ j, i < j → j < a + n → p j = false := by
  induction n with
  | zero =>
    intro a i
    rw [List.range'_zero, List.reverse_nil, List.find?_nil]
    constructor
    · intro h; exact absurd h (by simp)
    · rintro ⟨h1, h2, _⟩; exact absurd h2 (by omega)
  | succ n ih =>
    intro a i
    have hconcat : List.range' a (n + 1) = List.range' a n ++ [a + n] := by
      simpa using @List.range'_concat 1 a n
    rw [hconcat, List.reverse_append, List.reverse_singleton, List.singleton_append]
    by_cases hp : p (a + n) = true
    · rw [List.find?_cons_of_pos _ hp]
      constructor
      · intro h
        injection h with h
        subst h
        exact ⟨by omega, by omega, hp, fun j hj1 hj2 => absurd hj2 (by omega)⟩
      · rintro ⟨h1, h2, h3, h4⟩
        by_cases hin : i = a + n
        · rw [hin]
        · have hlt : i < a + n := by omega
          have hf := h4 (a + n) hlt (by omega)
          rw [hp] at hf
          exact absurd hf (by simp)
    · rw [List.find?_cons_of_neg _ hp, ih a i]
      have hp2 : p (a + n) = false := by
        cases hpb : p (a + n)
        · rfl
        · exact absurd hpb hp
      constructor
      · rintro ⟨h1, h2, h3, h4⟩
        refine ⟨h1, by omega, h3, fun j hj1 hj2 => ?_⟩
        by_cases hjn : j = a + n
        · rw [hjn]; exact hp2
        · exact h4 j hj1 (by omega)
      · rintro ⟨h1, h2, h3, h4⟩
        have hin : i ≠ a + n := by
          intro h
          rw [h, hp2] at h3
          exact absurd h3 (by simp)
        exact ⟨h1, by omega, h3, fun j hj1 hj2 => h4 j hj1 (by omega)⟩

/-- The indices the lock scan visits are exactly those of inScanRange. -/
theorem mem_scanIndices (s e i : Nat) :
    i ∈ scanIndices s e ↔ inScanRange s e i := by
  unfold scanIndices inScanRange
  by_cases h : s < e
  · rw [if_pos h, List.mem_range'_1]
    omega
  · rw [if_neg h, List.mem_reverse, List.mem_range'_1]
    omega

/-- Every scanned index is bounded by the larger scan endpoint. -/
theorem inScanRange_le_max (s e i : Nat) (h : inScanRange s e i) : i ≤ max s e := by
  rcases h with ⟨_, _, h2⟩ | ⟨_, _, h2⟩
  · exact le_trans h2 (le_max_right s e)
  · exact le_trans (by omega) (le_max_left s e)

/-- findFirstLockedHandleIndex returns -1 exactly when every scanned handle
has interactionKind PUSH. -/
theorem findFirstLockedHandleIndex_neg_one_iff (hp : List IHandleProps) (s e : Nat) :
    findFirstLockedHandleIndex hp s e = -1 ↔
      ∀ i, inScanRange s e i →
        (hp.getD i defaultHandle).interactionKind = HandleInteractionKind.PUSH := by
  unfold findFirstLockedHandleIndex
  rcases hfind : (scanIndices s e).find? (fun index =>
      (hp.getD index defaultHandle).interactionKind != HandleInteractionKind.PUSH) with _ | j
  · show (-1 : Int) = -1 ↔ _
    rw [List.find?_eq_none] at hfind
    constructor
    · intro _ i hi
      have hx := hfind i ((mem_scanIndices s e i).mpr hi)
      simpa using hx
    · intro _; rfl
  · show Int.ofNat j = -1 ↔ _
    have hj := List.find?_some hfind
    have hjmem := List.mem_of_find?_eq_some hfind
    constructor
    · intro hh; exact absurd hh (by rw [Int.ofNat_eq_coe]; omega)
    · intro hall
      have hx := hall j ((mem_scanIndices s e j).mp hjmem)
      rw [hx] at hj
      exact absurd hj (by simp)

/-- findFirstLockedHandleIndex returns a nonnegative index i exactly when i is
in the scan range, is not PUSH, and every index visited before it is PUSH. -/
theorem findFirstLockedHandleIndex_some_iff (hp : List IHandleProps) (s e i : Nat) :
    findFirstLockedHandleIndex hp s e = Int.ofNat i ↔
      (inScanRange s e i ∧
        (hp.getD i defaultHandle).interactionKind ≠ HandleInteractionKind.PUSH ∧
        ∀ j, inScanRange s e j → scanBefore s e j i →
          (hp.getD j defaultHandle).interactionKind = HandleInteractionKind.PUSH) := by
  have hwrap : findFirstLockedHandleIndex hp s e = Int.ofNat i ↔
      ((scanIndices s e).find? (fun index =>
        (hp.getD index defaultHandle).interactionKind != HandleInteractionKind.PUSH) = some i) := by
    unfold findFirstLockedHandleIndex
    rcases hfind : (scanIndices s e).find? (fun index =>
        (hp.getD index defaultHandle).interactionKind != HandleInteractionKind.PUSH) with _ | j
    · show (-1 : Int) = Int.ofNat i ↔ (none : Option Nat) = some i
      constructor
      · intro hh; exact absurd hh (by rw [Int.ofNat_eq_coe]; omega)
      · intro hh; exact absurd hh (by simp)
    · show Int.ofNat j = Int.ofNat i ↔ some j = some i
      constructor
      · intro hh; rw [Int.ofNat.inj hh]
      · intro hh; injection hh with hh; rw [hh]
  rw [hwrap]
  unfold scanIndices inScanRange scanBefore
  by_cases h : s < e
  · rw [if_pos h, find?_range'_asc]
    constructor
    · rintro ⟨h1, h2, h3, h4⟩
      refine ⟨Or.inl ⟨h, h1, by omega⟩, by simpa using h3, fun j hj hb => ?_⟩
      rcases hj with ⟨_, hj1, _⟩ | ⟨hc, _⟩
      · rcases hb with ⟨_, hb⟩ | ⟨hc, _⟩
        · have hx := h4 j hj1 hb
          simpa using hx
        · exact absurd h hc
      · exact absurd h hc
    · rintro ⟨hin, hne, hall⟩
      rcases hin with ⟨_, h1, h2⟩ | ⟨hc, _⟩
      · refine ⟨h1, by omega, by simpa using hne, fun j hj1 hj2 => ?_⟩
        have hx := hall j (Or.inl ⟨h, hj1, by omega⟩) (Or.inl ⟨h, hj2⟩)
        simpa only [bne_eq_false_iff_eq] using hx
      · exact absurd h hc
  · rw [if_neg h, find?_range'_desc]
    constructor
    · rintro ⟨h1, h2, h3, h4⟩
      refine ⟨Or.inr ⟨h, h1, by omega⟩, by simpa using h3, fun j hj hb => ?_⟩
      rcases hj with ⟨hc, _⟩ | ⟨_, _, hj2⟩
      · exact absurd hc h
      · rcases hb with ⟨hc, _⟩ | ⟨_, hb⟩
        · exact absurd hc h
        · have hx := h4 j hb (by omega)
          simpa using hx
    · rintro ⟨hin, hne, hall⟩
      rcases hin with ⟨hc, _⟩ | ⟨_, h1, h2⟩
      · exact absurd hc h
      · refine ⟨h1, by omega, by simpa using hne, fun j hj1 hj2 => ?_⟩
        have hx := hall j (Or.inr ⟨h, by omega, by omega⟩) (Or.inr ⟨h, hj1⟩)
        simpa only [bne_eq_false_iff_eq] using hx

/-- fillValues preserves the length of the array. -/
theorem fillValues_length (values : List ℚ) (a b : Nat) (v : ℚ) :
    (fillValues values a b v).length = values.length := by
  unfold fillValues
  exact List.length_mapIdx

/-- Pointwise description of fillValues: slots in the closed span between the
two indices hold the fill value, all others are untouched. -/
theorem fillValues_getD (values : List ℚ) (a b : Nat) (v : ℚ) (k : Nat)
    (hk : k < values.length) :
    (fillValues values a b v).getD k 0 =
      if min a b ≤ k ∧ k ≤ max a b then v else values.getD k 0 := by
  unfold fillValues
  have hk2 : k < (values.mapIdx (fun index w =>
      if min a b ≤ index ∧ index ≤ max a b then v else w)).length := by
    rw [List.length_mapIdx]; exact hk
  rw [List.getD_eq_getElem _ _ hk2, List.getElem_mapIdx, List.getD_eq_getElem _ _ hk]

/-- Filling a closed span of a sorted array with the value sitting at some slot
of that span keeps the array sorted. -/
theorem fillValues_sorted (values : List ℚ) (a b m : Nat) (v : ℚ)
    (hsorted : values.Sorted (fun x y => x ≤ y))
    (hm1 : min a b ≤ m) (hm2 : m ≤ max a b) (hmlt : m < values.length)
    (hv : values.getD m 0 = v) :
    (fillValues values a b v).Sorted (fun x y => x ≤ y) := by
  rw [List.getD_eq_getElem _ _ hmlt] at hv
  have hps := List.pairwise_iff_getElem.mp hsorted
  refine List.pairwise_iff_getElem.mpr ?_
  intro i j hi hj hij
  have hlen : (fillValues values a b v).length = values.length := fillValues_length values a b v
  have hi2 : i < values.length := by rw [hlen] at hi; exact hi
  have hj2 : j < values.length := by rw [hlen] at hj; exact hj
  have hgi : (fillValues values a b v)[i] =
      if min a b ≤ i ∧ i ≤ max a b then v else values[i] := by
    unfold fillValues
    rw [List.getElem_mapIdx]
  have hgj : (fillValues values a b v)[j] =
      if min a b ≤ j ∧ j ≤ max a b then v else values[j] := by
    unfold fillValues
    rw [List.getElem_mapIdx]
  rw [hgi, hgj]
  by_cases hci : min a b ≤ i ∧ i ≤ max a b
  · by_cases hcj : min a b ≤ j ∧ j ≤ max a b
    · rw [if_pos hci, if_pos hcj]
    · rw [if_pos hci, if_neg hcj]
      have hmj : m < j := by omega
      rw [← hv]
      exact hps m j hmlt hj2 hmj
  · by_cases hcj : min a b ≤ j ∧ j ≤ max a b
    · rw [if_neg hci, if_pos hcj]
      have him : i < m := by omega
      rw [← hv]
      exact hps i m hi2 hmlt him
    · rw [if_neg hci, if_neg hcj]
      exact hps i j hi2 hj2 hij

/-- The current sorted interactive values are sorted nondecreasing. -/
theorem oldValuesOf_sorted (children : List Child) :
    (oldValuesOf children).Sorted (fun x y => x ≤ y) := by
  unfold oldValuesOf
  refine (List.pairwise_map).mpr ?_
  exact List.sorted_insertionSort handleLe _

/-- The current sorted interactive values list has one entry per handle. -/
theorem oldValuesOf_length (children : List Child) :
    (oldValuesOf children).length = (getSortedInteractiveHandleProps children).length := by
  unfold oldValuesOf
  exact List.length_map _ _

/-- Facts about the sorted updated values: permutation of the updated array,
sortedness, length preservation, and the dragged value sitting at its
sorted position (which is in range). -/
theorem newSortedValues_facts (children : List Child) (newValue : ℚ) (oldIndex : Nat)
    (hold : oldIndex < (getSortedInteractiveHandleProps children).length) :
    (newSortedValues children newValue oldIndex).Perm
      ((oldValuesOf children).set oldIndex newValue) ∧
    (newSortedValues children newValue oldIndex).Sorted (fun x y => x ≤ y) ∧
    (newSortedValues children newValue oldIndex).length =
      (getSortedInteractiveHandleProps children).length ∧
    newSortedIndex children newValue oldIndex <
      (getSortedInteractiveHandleProps children).length ∧
    (newSortedValues children newValue oldIndex).getD
      (newSortedIndex children newValue oldIndex) 0 = newValue := by
  have hperm : (newSortedValues children newValue oldIndex).Perm
      ((oldValuesOf children).set oldIndex newValue) := by
    unfold newSortedValues oldValuesOf
    exact List.perm_insertionSort _ _
  have hsorted : (newSortedValues children newValue oldIndex).Sorted (fun x y => x ≤ y) := by
    unfold newSortedValues
    exact List.sorted_insertionSort _ _
  have hsetlen : ((oldValuesOf children).set oldIndex newValue).length =
      (getSortedInteractiveHandleProps children).length := by
    rw [List.length_set]
    exact oldValuesOf_length children
  have hlen : (newSortedValues children newValue oldIndex).length =
      (getSortedInteractiveHandleProps children).length := by
    rw [hperm.length_eq]
    exact hsetlen
  have holdset : oldIndex < ((oldValuesOf children).set oldIndex newValue).length := by
    rw [hsetlen]; exact hold
  have hmemset : newValue ∈ (oldValuesOf children).set oldIndex newValue := by
    have hget : ((oldValuesOf children).set oldIndex newValue)[oldIndex] = newValue := by
      rw [List.getElem_set]
      exact if_pos rfl
    have hm := List.getElem_mem holdset
    rwa [hget] at hm
  have hmem : newValue ∈ newSortedValues children newValue oldIndex :=
    hperm.mem_iff.mpr hmemset
  have hidx : newSortedIndex children newValue oldIndex <
      (newSortedValues children newValue oldIndex).length := by
    unfold newSortedIndex
    exact List.indexOf_lt_length.mpr hmem
  refine ⟨hperm, hsorted, hlen, ?_, ?_⟩
  · rw [← hlen]; exact hidx
  · unfold newSortedIndex at hidx ⊢
    rw [List.getD_eq_getElem _ _ hidx]
    exact List.getElem_indexOf hidx

/-- The lock scan result is either -1 or a scanned index. -/
theorem findFirstLockedHandleIndex_cases (hp : List IHandleProps) (s e : Nat) :
    findFirstLockedHandleIndex hp s e = -1 ∨
      ∃ j, findFirstLockedHandleIndex hp s e = Int.ofNat j ∧ inScanRange s e j := by
  unfold findFirstLockedHandleIndex
  rcases hfind : (scanIndices s e).find? (fun index =>
      (hp.getD index defaultHandle).interactionKind != HandleInteractionKind.PUSH) with _ | j
  · left; rfl
  · right
    exact ⟨j, rfl, (mem_scanIndices s e j).mp (List.mem_of_find?_eq_some hfind)⟩

/-- getNewHandleValues in the no-lock branch: fill the sorted updated values
from oldIndex to the new sorted position with the new value. -/
theorem getNewHandleValues_eq_of_neg_one (children : List Child) (newValue : ℚ)
    (oldIndex : Nat)
    (h : findFirstLockedHandleIndex (getSortedInteractiveHandleProps children) oldIndex
      (newSortedIndex children newValue oldIndex) = -1) :
    getNewHandleValues children newValue oldIndex =
      fillValues (newSortedValues children newValue oldIndex) oldIndex
        (newSortedIndex children newValue oldIndex) newValue := by
  simp only [getNewHandleValues]
  rw [if_pos h]

/-- getNewHandleValues in the locked branch: fill the old values from oldIndex
to the locked index with the locked handle's old value. -/
theorem getNewHandleValues_eq_of_some (children : List Child) (newValue : ℚ)
    (oldIndex j : Nat)
    (h : findFirstLockedHandleIndex (getSortedInteractiveHandleProps children) oldIndex
      (newSortedIndex children newValue oldIndex) = Int.ofNat j) :
    getNewHandleValues children newValue oldIndex =
      fillValues (oldValuesOf children) oldIndex j ((oldValuesOf children).getD j 0) := by
  simp only [getNewHandleValues, oldValuesOf]
  rw [h]
  rw [if_neg (by rw [Int.ofNat_eq_coe]; omega)]
  rw [Int.ofNat_eq_coe, Int.toNat_ofNat]

/-- C3: findFirstLockedHandleIndex(startIndex, endIndex) scans the sorted
interactive handles from the slot next to startIndex toward endIndex
(inclusive, in the direction of endIndex) and returns the index of the first
handle whose interactionKind is not PUSH; it returns -1 exactly when every
handle in that range has interactionKind PUSH. -/
theorem findFirstLockedHandleIndex_spec (handleProps : List IHandleProps)
    (startIndex endIndex : Nat)
    (hs : startIndex < handleProps.length) (he : endIndex < handleProps.length) :
    (findFirstLockedHandleIndex handleProps startIndex endIndex = -1 ↔
      ∀ i (hi : i < handleProps.length), inScanRange startIndex endIndex i →
        handleProps[i].interactionKind = HandleInteractionKind.PUSH) ∧
    (∀ i : Nat, findFirstLockedHandleIndex handleProps startIndex endIndex = Int.ofNat i →
      ∃ hi : i < handleProps.length,
        inScanRange startIndex endIndex i ∧
        handleProps[i].interactionKind ≠ HandleInteractionKind.PUSH ∧
        ∀ j (hj : j < handleProps.length), inScanRange startIndex endIndex j →
          scanBefore startIndex endIndex j i →
          handleProps[j].interactionKind = HandleInteractionKind.PUSH) := by
  have hbound : ∀ i, inScanRange startIndex endIndex i → i < handleProps.length := by
    intro i hi
    exact lt_of_le_of_lt (inScanRange_le_max startIndex endIndex i hi) (max_lt hs he)
  constructor
  · rw [findFirstLockedHandleIndex_neg_one_iff]
    constructor
    · intro hall i hi hin
      have hx := hall i hin
      rwa [List.getD_eq_getElem _ _ hi] at hx
    · intro hall i hin
      have hi := hbound i hin
      rw [List.getD_eq_getElem _ _ hi]
      exact hall i hi hin
  · intro i heq
    rw [findFirstLockedHandleIndex_some_iff] at heq
    rcases heq with ⟨hin, hne, hall⟩
    have hi := hbound i hin
    refine ⟨hi, hin, ?_, ?_⟩
    · rwa [List.getD_eq_getElem _ _ hi] at hne
    · intro j hj hjin hjb
      have hx := hall j hjin hjb
      rwa [List.getD_eq_getElem _ _ hj] at hx

/-- C3 witness: with two PUSH handles the scan from index 0 to 1 finds no
locked handle, so the handle at index 1 is PUSH. -/
theorem findFirstLockedHandleIndex_spec_witness :
    ((getSortedInteractiveHandleProps pushChildren).getD 1 defaultHandle).interactionKind =
      HandleInteractionKind.PUSH := by
  have h := (findFirstLockedHandleIndex_spec (getSortedInteractiveHandleProps pushChildren)
    0 1 (by decide) (by decide)).1.mp (by decide) 1 (by decide) (by decide)
  rwa [List.getD_eq_getElem _ _ (by decide)]

/-- C1 counterexample: with handles at 0 (PUSH) and 10 (LOCK), dragging the
handle at sorted index 0 to value 15 puts it at sorted position 1. No handle
lies strictly between index 0 and position 1, so under the claim the result
would be the sorted array with the span [0, 1] filled with 15, namely
[15, 15]; the code instead inspects the handle at the new position itself,
finds the lock, and returns [10, 10]. -/
theorem getNewHandleValues_strictly_between_cex :
    newSortedIndex lockChildren 15 0 = 1 ∧
    getNewHandleValues lockChildren 15 0 = [10, 10] ∧
    fillValues (newSortedValues lockChildren 15 0) 0 1 15 = [15, 15] ∧
    getNewHandleValues lockChildren 15 0 ≠
      fillValues (newSortedValues lockChildren 15 0) 0 1 15 :=
  ⟨by decide, by decide, by decide, by decide⟩

/-- C1 (amended): getNewHandleValues sorts the updated values by value; when
every handle strictly after oldIndex up to and including the new sorted
position (in the direction of that position) has interaction kind PUSH, it
returns the sorted array with every entry between oldIndex and the new
position (inclusive) set to the new value; otherwise it discards the new value
and returns the old values with every entry between oldIndex and the first
locked index set to that locked handle's old value, clamping the dragged slot
to the nearest locked neighbor's old value. -/
theorem getNewHandleValues_spec (children : List Child) (newValue : ℚ) (oldIndex : Nat)
    (hold : oldIndex < (getSortedInteractiveHandleProps children).length) :
    ((newSortedValues children newValue oldIndex).Perm
        ((oldValuesOf children).set oldIndex newValue) ∧
      (newSortedValues children newValue oldIndex).Sorted (fun x y => x ≤ y) ∧
      newSortedIndex children newValue oldIndex <
        (getSortedInteractiveHandleProps children).length ∧
      (newSortedValues children newValue oldIndex).getD
        (newSortedIndex children newValue oldIndex) 0 = newValue) ∧
    ((∀ i, inScanRange oldIndex (newSortedIndex children newValue oldIndex) i →
        kindAt children i = HandleInteractionKind.PUSH) →
      (getNewHandleValues children newValue oldIndex).length =
        (getSortedInteractiveHandleProps children).length ∧
      ∀ k, k < (getSortedInteractiveHandleProps children).length →
        (getNewHandleValues children newValue oldIndex).getD k 0 =
          if min oldIndex (newSortedIndex children newValue oldIndex) ≤ k ∧
              k ≤ max oldIndex (newSortedIndex children newValue oldIndex) then newValue
          else (newSortedValues children newValue oldIndex).getD k 0) ∧
    (∀ lockIndex, inScanRange oldIndex (newSortedIndex children newValue oldIndex) lockIndex →
      kindAt children lockIndex ≠ HandleInteractionKind.PUSH →
      (∀ j, inScanRange oldIndex (newSortedIndex children newValue oldIndex) j →
        scanBefore oldIndex (newSortedIndex children newValue oldIndex) j lockIndex →
        kindAt children j = HandleInteractionKind.PUSH) →
      (getNewHandleValues children newValue oldIndex).length =
        (getSortedInteractiveHandleProps children).length ∧
      (∀ k, k < (getSortedInteractiveHandleProps children).length →
        (getNewHandleValues children newValue oldIndex).getD k 0 =
          if min oldIndex lockIndex ≤ k ∧ k ≤ max oldIndex lockIndex then
            (oldValuesOf children).getD lockIndex 0
          else (oldValuesOf children).getD k 0) ∧
      (getNewHandleValues children newValue oldIndex).getD oldIndex 0 =
        (oldValuesOf children).getD lockIndex 0) := by
  obtain ⟨hperm, hsorted, hlen, hni, hgetni⟩ :=
    newSortedValues_facts children newValue oldIndex hold
  refine ⟨⟨hperm, hsorted, hni, hgetni⟩, ?_, ?_⟩
  · intro hall
    have hneg : findFirstLockedHandleIndex (getSortedInteractiveHandleProps children) oldIndex
        (newSortedIndex children newValue oldIndex) = -1 := by
      rw [findFirstLockedHandleIndex_neg_one_iff]
      intro i hi
      have hx := hall i hi
      unfold kindAt at hx
      exact hx
    rw [getNewHandleValues_eq_of_neg_one children newValue oldIndex hneg]
    constructor
    · rw [fillValues_length]; exact hlen
    · intro k hk
      have hk2 : k < (newSortedValues children newValue oldIndex).length := by
        rw [hlen]; exact hk
      exact fillValues_getD _ _ _ _ _ hk2
  · intro lockIndex hin hne hall
    have hsome : findFirstLockedHandleIndex (getSortedInteractiveHandleProps children) oldIndex
        (newSortedIndex children newValue oldIndex) = Int.ofNat lockIndex := by
      rw [findFirstLockedHandleIndex_some_iff]
      refine ⟨hin, ?_, ?_⟩
      · unfold kindAt at hne; exact hne
      · intro j hj hjb
        have hx := hall j hj hjb
        unfold kindAt at hx
        exact hx
    rw [getNewHandleValues_eq_of_some children newValue oldIndex lockIndex hsome]
    have hovlen : (oldValuesOf children).length =
        (getSortedInteractiveHandleProps children).length := oldValuesOf_length children
    refine ⟨?_, ?_, ?_⟩
    · rw [fillValues_length]; exact hovlen
    · intro k hk
      have hk2 : k < (oldValuesOf children).length := by rw [hovlen]; exact hk
      exact fillValues_getD _ _ _ _ _ hk2
    · have hk2 : oldIndex < (oldValuesOf children).length := by rw [hovlen]; exact hold
      rw [fillValues_getD _ _ _ _ _ hk2]
      rw [if_pos ⟨min_le_left _ _, le_max_left _ _⟩]

/-- C1 witness: dragging the lower PUSH handle of two PUSH handles to 15. -/
theorem getNewHandleValues_spec_witness :
    0 < (getSortedInteractiveHandleProps pushChildren).length ∧
    (newSortedValues pushChildren 15 0).Perm ((oldValuesOf pushChildren).set 0 15) ∧
    (newSortedValues pushChildren 15 0).getD (newSortedIndex pushChildren 15 0) 0 = 15 :=
  ⟨by decide, (getNewHandleValues_spec pushChildren 15 0 (by decide)).1.1,
    (getNewHandleValues_spec pushChildren 15 0 (by decide)).1.2.2.2⟩

/-- C4: starting from the (always sorted) current handle values, every array
getNewHandleValues produces is sorted nondecreasing — in the no-lock fill
branch and in the locked branch — and hence so is every array handleChange
hands to props.onChange and handleRelease hands to props.onRelease. -/
theorem getNewHandleValues_sorted_invariant (children : List Child) (newValue : ℚ)
    (oldIndex : Nat)
    (hold : oldIndex < (getSortedInteractiveHandleProps children).length) :
    (getNewHandleValues children newValue oldIndex).Sorted (fun x y => x ≤ y) ∧
    (∀ arg, (handleChange children (getNewHandleValues children newValue oldIndex)).onChangeArg =
        some arg → arg.Sorted (fun x y => x ≤ y)) ∧
    ((handleRelease children
        (getNewHandleValues children newValue oldIndex)).onReleaseArg.Sorted
      (fun x y => x ≤ y)) := by
  obtain ⟨hperm, hsorted, hlen, hni, hgetni⟩ :=
    newSortedValues_facts children newValue oldIndex hold
  have hmain : (getNewHandleValues children newValue oldIndex).Sorted (fun x y => x ≤ y) := by
    rcases findFirstLockedHandleIndex_cases (getSortedInteractiveHandleProps children)
        oldIndex (newSortedIndex children newValue oldIndex) with hneg | ⟨j, hj, hjin⟩
    · rw [getNewHandleValues_eq_of_neg_one children newValue oldIndex hneg]
      refine fillValues_sorted _ oldIndex _ (newSortedIndex children newValue oldIndex) _
        hsorted (min_le_right _ _) (le_max_right _ _) ?_ hgetni
      rw [hlen]; exact hni
    · rw [getNewHandleValues_eq_of_some children newValue oldIndex j hj]
      have hjlt : j < (oldValuesOf children).length := by
        have hb := inScanRange_le_max _ _ _ hjin
        rw [oldValuesOf_length]
        omega
      exact fillValues_sorted _ oldIndex j j _ (oldValuesOf_sorted children)
        (min_le_right _ _) (le_max_right _ _) hjlt rfl
  refine ⟨hmain, ?_, ?_⟩
  · intro arg harg
    simp only [handleChange] at harg
    by_cases heq : getNewHandleValues children newValue oldIndex =
        (getSortedInteractiveHandleProps children).map (fun handle => handle.value)
    · rw [if_pos heq] at harg
      exact absurd harg (by simp)
    · rw [if_neg heq] at harg
      simp only [Option.some.injEq] at harg
      rcases harg with rfl
      exact hmain
  · exact hmain

/-- C4 witness: a drag past a locked handle still yields a sorted array. -/
theorem getNewHandleValues_sorted_invariant_witness :
    0 < (getSortedInteractiveHandleProps lockChildren).length ∧
    (getNewHandleValues lockChildren 15 0).Sorted (fun x y => x ≤ y) :=
  ⟨by decide, (getNewHandleValues_sorted_invariant lockChildren 15 0 (by decide)).1⟩
